import Mathlib

/-!
# Dirwalk: a shallow embedding of `src/dirwalk.c` and its specification

The program walks a directory tree depth-first, collects the paths that pass a
kind filter (`-l`, `-d`, `-f`) and prints them, sorted by `strcoll` under `-s`.

## Modelling decisions

* The file system seen by one run is a finite tree of `Entry` values.  An entry
  carries its `d_name`, the result of `lstat` on its path (`none` when `lstat`
  returns -1, otherwise `st_mode`) and the result of `opendir` on its path
  followed by `readdir` until `NULL` (`none` when `opendir` fails, otherwise the
  entries in iteration order, the names `.` and `..` included when the file
  system reports them).
* `st_mode` is a natural number; `S_ISLNK`, `S_ISDIR`, `S_ISREG` are the macros
  of `<sys/stat.h>` with the Linux values of `S_IFMT`, `S_IFLNK`, `S_IFDIR`,
  `S_IFREG`.
* C strings are `String`; `strlen` is the number of characters.
* The global flags `opt_l`, `opt_d`, `opt_f`, `opt_s` (only ever 0 or 1) are
  the Boolean fields of `Opts`, passed explicitly.
* `str_array_t` keeps the initialised slots `items[0..size)` as a list, so
  `size` is the length of that list, and the `capacity` counter.
* The `int` counters `size`, `capacity` and `len` are natural numbers: the
  embedding covers the runs in which they stay below `2^31`.
* `malloc`, `realloc` and `strdup` are taken to succeed (on failure the program
  exits without printing).  Diagnostics written to `stderr` are not recorded.
* `strcoll` and `qsort` belong to the C library: they are parameters of `main`.
-/

namespace Dirwalk

/-! ## `<sys/stat.h>` -/

/-- Bit mask of the file-type bits of `st_mode`. -/
def S_IFMT : Nat := 0o170000
/-- File-type bits of a directory. -/
def S_IFDIR : Nat := 0o040000
/-- File-type bits of a regular file. -/
def S_IFREG : Nat := 0o100000
/-- File-type bits of a symbolic link. -/
def S_IFLNK : Nat := 0o120000

/-- The macro `S_ISDIR(m)`: `((m) & S_IFMT) == S_IFDIR`. -/
def S_ISDIR (m : Nat) : Bool := (m &&& S_IFMT) == S_IFDIR
/-- The macro `S_ISREG(m)`: `((m) & S_IFMT) == S_IFREG`. -/
def S_ISREG (m : Nat) : Bool := (m &&& S_IFMT) == S_IFREG
/-- The macro `S_ISLNK(m)`: `((m) & S_IFMT) == S_IFLNK`. -/
def S_ISLNK (m : Nat) : Bool := (m &&& S_IFMT) == S_IFLNK

/-! ## Flags and the entry classifier -/

/-- The global flags set by the option loop of `main`. -/
structure Opts where
  opt_l : Bool
  opt_d : Bool
  opt_f : Bool
  opt_s : Bool
deriving DecidableEq, Repr

/-- The function `type_match` (dirwalk.c 44-58) on the `st_mode` of the entry. -/
def type_match (o : Opts) (st_mode : Nat) : Bool :=
  if !o.opt_l && !o.opt_d && !o.opt_f then true
  else if o.opt_l && S_ISLNK st_mode then true
  else if o.opt_d && S_ISDIR st_mode then true
  else if o.opt_f && S_ISREG st_mode then true
  else false

/-! ## The collector -/

/-- The struct `str_array_t`: `items` holds the slots `items[0..size)`. -/
structure str_array_t where
  items : List String
  capacity : Nat
deriving DecidableEq, Repr

/-- The field `size` of `str_array_t`. -/
def str_array_t.size (arr : str_array_t) : Nat := arr.items.length

/-- The function `arr_init` (dirwalk.c 62-66). -/
def arr_init : str_array_t := { items := [], capacity := 0 }

/-- The function `arr_push` (dirwalk.c 68-85): grow when full, then store a copy
of `path` in slot `size` and increment `size`. -/
def arr_push (arr : str_array_t) (path : String) : str_array_t :=
  let arr1 : str_array_t :=
    if arr.size = arr.capacity then
      let new_cap := if arr.capacity ≠ 0 then arr.capacity * 2 else 64
      { arr with capacity := new_cap }
    else arr
  { arr1 with items := arr1.items ++ [path] }

/-! ## The file system tree -/

/-- One directory entry: its name, the result of `lstat` on its path and the
result of `opendir`/`readdir` on its path. -/
inductive Entry where
  | mk (d_name : String) (st : Option Nat) (dir : Option (List Entry)) : Entry

/-- The name of an entry. -/
def Entry.d_name : Entry → String
  | Entry.mk n _ _ => n

/-! ## The walker -/

/-- The C function `strlen`. -/
def strlen (s : String) : Nat := s.length

/-- The call `snprintf(path, len, "%s/%s", dirpath, d_name)`: the formatted text,
cut to the `len - 1` characters that fit before the terminating NUL. -/
def snprintf_path (len : Nat) (dirpath d_name : String) : String :=
  ⟨(dirpath ++ "/" ++ d_name).data.take (len - 1)⟩

mutual
/-- The function `walk` (dirwalk.c 103-137): `dir` is what `opendir(dirpath)`
and the `readdir` loop deliver. -/
def walk (o : Opts) (dirpath : String) (dir : Option (List Entry))
    (out : str_array_t) : str_array_t :=
  match dir with
  | none => out
  | some ents => walk_loop o dirpath ents out
termination_by structural dir
/-- The `while ((ent = readdir(dir)) != NULL)` loop of `walk`. -/
def walk_loop (o : Opts) (dirpath : String) (ents : List Entry)
    (out : str_array_t) : str_array_t :=
  match ents with
  | [] => out
  | ent :: rest => walk_loop o dirpath rest (walk_body o dirpath ent out)
termination_by structural ents
/-- One iteration of the loop of `walk` (dirwalk.c 111-134). -/
def walk_body (o : Opts) (dirpath : String) (ent : Entry)
    (out : str_array_t) : str_array_t :=
  match ent with
  | Entry.mk d_name st sub =>
    if d_name = "." ∨ d_name = ".." then out
    else
      let len := strlen dirpath + strlen d_name + 2
      let path := snprintf_path len dirpath d_name
      match st with
      | none => out
      | some st_mode =>
        let out1 := if type_match o st_mode then arr_push out path else out
        if S_ISDIR st_mode && !S_ISLNK st_mode then walk o path sub out1 else out1
termination_by structural ent
end

/-! ## The driver -/

/-- The function `path_cmp` (dirwalk.c 95-99): `strcoll` on the two strings the
array slots point to. -/
def path_cmp (strcoll : String → String → Int) (a b : String) : Int :=
  strcoll a b

/-- The function `main` (dirwalk.c 159-169) after option parsing: `o` holds the
flags, `start_dir` the chosen start directory and `root` what `opendir` and
`readdir` deliver for it.  The value is the list of lines printed. -/
def main (qsort : List String → (String → String → Int) → List String)
    (strcoll : String → String → Int) (o : Opts) (start_dir : String)
    (root : Option (List Entry)) : List String :=
  let results := walk o start_dir root arr_init
  let results :=
    if o.opt_s && decide (results.size > 1) then
      { results with items := qsort results.items (path_cmp strcoll) }
    else results
  results.items

/-! ## Notions used to state the properties -/

/-- The path `q` lies strictly beneath the path `p`: it is `p`, a `/` and more. -/
def beneath (q p : String) : Prop := ∃ r : String, q = p ++ "/" ++ r

mutual
/-- Every entry of the tree with its path and its `lstat` result, whatever its
kind and whether or not the walk reaches it. -/
def entries_dir (dirpath : String) (dir : Option (List Entry)) :
    List (String × Option Nat) :=
  match dir with
  | none => []
  | some ents => entries_list dirpath ents
termination_by structural dir
/-- The entries of a listing and everything beneath them. -/
def entries_list (dirpath : String) (ents : List Entry) :
    List (String × Option Nat) :=
  match ents with
  | [] => []
  | ent :: rest => entries_ent dirpath ent ++ entries_list dirpath rest
termination_by structural ents
/-- One entry and everything beneath it. -/
def entries_ent (dirpath : String) (ent : Entry) : List (String × Option Nat) :=
  match ent with
  | Entry.mk d_name st sub =>
    (dirpath ++ "/" ++ d_name, st) :: entries_dir (dirpath ++ "/" ++ d_name) sub
termination_by structural ent
end

mutual
/-- What `readdir` guarantees of a tree: inside one directory the names are
pairwise distinct and none contains a `/`. -/
def wf_dir (dir : Option (List Entry)) : Bool :=
  match dir with
  | none => true
  | some ents => wf_list ents
termination_by structural dir
/-- Well-formedness of a listing. -/
def wf_list (ents : List Entry) : Bool :=
  match ents with
  | [] => true
  | ent :: rest =>
    wf_ent ent && rest.all (fun e => e.d_name != ent.d_name) && wf_list rest
termination_by structural ents
/-- Well-formedness of an entry and what lies beneath it. -/
def wf_ent (ent : Entry) : Bool :=
  match ent with
  | Entry.mk d_name _ sub => !d_name.data.contains '/' && wf_dir sub
termination_by structural ent
end

mutual
/-- Every entry of the tree whose `lstat` succeeds is a symbolic link, a
directory or a regular file. -/
def three_kinds_dir (dir : Option (List Entry)) : Bool :=
  match dir with
  | none => true
  | some ents => three_kinds_list ents
termination_by structural dir
/-- The three-kinds condition on a listing. -/
def three_kinds_list (ents : List Entry) : Bool :=
  match ents with
  | [] => true
  | ent :: rest => three_kinds_ent ent && three_kinds_list rest
termination_by structural ents
/-- The three-kinds condition on an entry and what lies beneath it. -/
def three_kinds_ent (ent : Entry) : Bool :=
  match ent with
  | Entry.mk _ st sub =>
    (match st with
      | none => true
      | some m => S_ISLNK m || S_ISDIR m || S_ISREG m) && three_kinds_dir sub
termination_by structural ent
end

/-- Two listings that differ only in the order in which each directory of the
tree returns its entries. -/
inductive Shuffle : List Entry → List Entry → Prop where
  | nil : Shuffle [] []
  | cons_closed (n : String) (st : Option Nat) {l l2 : List Entry} :
      Shuffle l l2 → Shuffle (Entry.mk n st none :: l) (Entry.mk n st none :: l2)
  | cons_open (n : String) (st : Option Nat) {s s2 l l2 : List Entry} :
      Shuffle s s2 → Shuffle l l2 →
      Shuffle (Entry.mk n st (some s) :: l) (Entry.mk n st (some s2) :: l2)
  | swap (a b : Entry) (l : List Entry) : Shuffle (a :: b :: l) (b :: a :: l)
  | trans {l1 l2 l3 : List Entry} : Shuffle l1 l2 → Shuffle l2 l3 → Shuffle l1 l3

/-- The second listing is the first with one entry whose `lstat` fails, and
everything beneath that entry, taken out somewhere in the tree. -/
inductive RemoveFailed : List Entry → List Entry → Prop where
  | here (n : String) (sub : Option (List Entry)) (l : List Entry) :
      RemoveFailed (Entry.mk n none sub :: l) l
  | next (e : Entry) {l l2 : List Entry} :
      RemoveFailed l l2 → RemoveFailed (e :: l) (e :: l2)
  | inside (n : String) (st : Option Nat) {s s2 : List Entry} (l : List Entry) :
      RemoveFailed s s2 →
      RemoveFailed (Entry.mk n st (some s) :: l) (Entry.mk n st (some s2) :: l)

/-- What the C standard asks of a comparison function handed to `qsort`: its
results are consistent with one another and define a total ordering.  The signs of
`cmp a b` and `cmp b a` are opposite, and `cmp a b ≤ 0` is transitive. -/
def Consistent (cmp : String → String → Int) : Prop :=
  (∀ a b, 0 < cmp a b ↔ cmp b a < 0) ∧
  (∀ a b c, cmp a b ≤ 0 → cmp b c ≤ 0 → cmp a c ≤ 0)

/-- The contract of the C library function `qsort`: with a comparison function that
is consistent in the sense of the standard, the array is rearranged into ascending
order.  Nothing is assumed for any other comparison function. -/
def QsortContract (qsort : List String → (String → String → Int) → List String) : Prop :=
  ∀ cmp l, Consistent cmp →
    (qsort l cmp).Perm l ∧ (qsort l cmp).Pairwise (fun a b => cmp a b ≤ 0)

/-- An instance of `qsort` for concrete runs: insertion sort. -/
def qsort_insertion (l : List String) (cmp : String → String → Int) : List String :=
  l.insertionSort (fun a b => cmp a b ≤ 0)

/-- The C function `strcmp` on the characters of two strings: the sign of the first
difference, a proper initial segment coming first. -/
def strcmp_chars : List Char → List Char → Int
  | [], [] => 0
  | [], _ :: _ => -1
  | _ :: _, [] => 1
  | a :: as, b :: bs =>
    if a.toNat < b.toNat then -1
    else if b.toNat < a.toNat then 1
    else strcmp_chars as bs

/-- An instance of `strcoll` for concrete runs: the "C" locale, where collation
is the character-wise comparison of `strcmp`. -/
def strcoll_C (a b : String) : Int := strcmp_chars a.data b.data

/-- The paths `walk` appends for `dirpath`, starting from an empty collector. -/
def paths_dir (o : Opts) (dirpath : String) (dir : Option (List Entry)) : List String :=
  (walk o dirpath dir arr_init).items

/-- The paths the loop of `walk` appends, starting from an empty collector. -/
def paths_list (o : Opts) (dirpath : String) (ents : List Entry) : List String :=
  (walk_loop o dirpath ents arr_init).items

/-- The paths one iteration of the loop appends, starting from an empty collector. -/
def paths_ent (o : Opts) (dirpath : String) (ent : Entry) : List String :=
  (walk_body o dirpath ent arr_init).items

/-! ## Auxiliary facts -/

theorem snprintf_path_eq (a b : String) :
    snprintf_path (strlen a + strlen b + 2) a b = a ++ "/" ++ b := by
  apply String.ext
  show List.take _ _ = _
  apply List.take_of_length_le
  simp only [String.data_append, List.length_append, strlen, String.length]
  show _ + 1 + _ ≤ _
  omega

theorem arr_push_items (arr : str_array_t) (p : String) :
    (arr_push arr p).items = arr.items ++ [p] := by
  unfold arr_push
  by_cases h : arr.size = arr.capacity <;> simp [h]

theorem walk_body_eq (o : Opts) (dp n : String) (m : Nat) (sub : Option (List Entry))
    (out : str_array_t) (hn : ¬ (n = "." ∨ n = "..")) :
    walk_body o dp (Entry.mk n (some m) sub) out =
      if S_ISDIR m && !S_ISLNK m then
        walk o (dp ++ "/" ++ n) sub
          (if type_match o m then arr_push out (dp ++ "/" ++ n) else out)
      else (if type_match o m then arr_push out (dp ++ "/" ++ n) else out) := by
  rw [walk_body, if_neg hn]
  simp only [snprintf_path_eq]

theorem walk_body_dot (o : Opts) (dp n : String) (st : Option Nat)
    (sub : Option (List Entry)) (out : str_array_t) (hn : n = "." ∨ n = "..") :
    walk_body o dp (Entry.mk n st sub) out = out := by
  rw [walk_body, if_pos hn]

theorem walk_body_failed (o : Opts) (dp n : String) (sub : Option (List Entry))
    (out : str_array_t) : walk_body o dp (Entry.mk n none sub) out = out := by
  rw [walk_body]
  split <;> rfl

/-- Induction over a listing and, for every entry that can be opened, over the
listing beneath it. -/
theorem Entry.list_induct {P : List Entry → Prop} (nil : P [])
    (cons_closed : ∀ n st l, P l → P (Entry.mk n st none :: l))
    (cons_open : ∀ n st s l, P s → P l → P (Entry.mk n st (some s) :: l)) :
    ∀ l, P l
  | [] => nil
  | Entry.mk n st none :: l => cons_closed n st l (Entry.list_induct nil cons_closed cons_open l)
  | Entry.mk n st (some s) :: l =>
    cons_open n st s l (Entry.list_induct nil cons_closed cons_open s)
      (Entry.list_induct nil cons_closed cons_open l)

theorem walk_loop_items (o : Opts) (l : List Entry) :
    ∀ (dp : String) (out : str_array_t),
      (walk_loop o dp l out).items = out.items ++ paths_list o dp l := by
  induction l using Entry.list_induct with
  | nil => intro dp out; simp [paths_list, walk_loop, arr_init]
  | cons_closed n st l ih =>
    intro dp out
    have hb : ∀ out : str_array_t, (walk_body o dp (Entry.mk n st none) out).items
        = out.items ++ paths_ent o dp (Entry.mk n st none) := by
      intro out
      unfold paths_ent
      by_cases hn : n = "." ∨ n = ".."
      · simp [walk_body_dot _ _ _ _ _ _ hn, arr_init]
      · cases st with
        | none => simp [walk_body_failed, arr_init]
        | some m =>
          simp only [walk_body_eq _ _ _ _ _ _ hn, walk]
          by_cases ht : type_match o m = true <;> simp [ht, arr_push_items, arr_init]
    simp only [paths_list, walk_loop]
    rw [ih, ih dp (walk_body _ _ _ arr_init), hb]
    simp [paths_ent, List.append_assoc]
  | cons_open n st s l ihs ih =>
    intro dp out
    have hb : ∀ out : str_array_t, (walk_body o dp (Entry.mk n st (some s)) out).items
        = out.items ++ paths_ent o dp (Entry.mk n st (some s)) := by
      intro out
      unfold paths_ent
      by_cases hn : n = "." ∨ n = ".."
      · simp [walk_body_dot _ _ _ _ _ _ hn, arr_init]
      · cases st with
        | none => simp [walk_body_failed, arr_init]
        | some m =>
          simp only [walk_body_eq _ _ _ _ _ _ hn, walk]
          by_cases hd : (S_ISDIR m && !S_ISLNK m) = true
          · simp only [hd, if_true]
            rw [ihs, ihs _ (if type_match o m = true then _ else _)]
            by_cases ht : type_match o m = true <;> simp [ht, arr_push_items, arr_init]
          · simp only [hd]
            by_cases ht : type_match o m = true <;> simp [ht, arr_push_items, arr_init]
    simp only [paths_list, walk_loop]
    rw [ih, ih dp (walk_body _ _ _ arr_init), hb]
    simp [paths_ent, List.append_assoc]

theorem walk_items (o : Opts) (dp : String) (dir : Option (List Entry))
    (out : str_array_t) :
    (walk o dp dir out).items = out.items ++ paths_dir o dp dir := by
  cases dir with
  | none => simp [walk, paths_dir, arr_init]
  | some l =>
    simp only [walk, paths_dir]
    rw [walk_loop_items, walk_loop_items o l dp arr_init]
    simp [arr_init]

theorem paths_dir_none (o : Opts) (dp : String) : paths_dir o dp none = [] := by
  simp [paths_dir, walk, arr_init]

theorem paths_dir_some (o : Opts) (dp : String) (l : List Entry) :
    paths_dir o dp (some l) = paths_list o dp l := by
  simp [paths_dir, paths_list, walk]

theorem paths_list_nil (o : Opts) (dp : String) : paths_list o dp [] = [] := by
  simp [paths_list, walk_loop, arr_init]

theorem paths_list_cons (o : Opts) (dp : String) (e : Entry) (l : List Entry) :
    paths_list o dp (e :: l) = paths_ent o dp e ++ paths_list o dp l := by
  simp only [paths_list, walk_loop]
  rw [walk_loop_items]
  rfl

theorem paths_ent_eq (o : Opts) (dp n : String) (m : Nat) (sub : Option (List Entry))
    (hn : ¬ (n = "." ∨ n = "..")) :
    paths_ent o dp (Entry.mk n (some m) sub) =
      (if type_match o m then [dp ++ "/" ++ n] else []) ++
      (if S_ISDIR m && !S_ISLNK m then paths_dir o (dp ++ "/" ++ n) sub else []) := by
  unfold paths_ent
  rw [walk_body_eq _ _ _ _ _ _ hn]
  by_cases hd : (S_ISDIR m && !S_ISLNK m) = true
  · simp only [hd, if_true]
    rw [walk_items]
    by_cases ht : type_match o m = true <;> simp [ht, arr_push_items, arr_init]
  · simp only [hd]
    by_cases ht : type_match o m = true <;> simp [ht, arr_push_items, arr_init]

theorem mem_paths_ent {o : Opts} {dp n : String} {st : Option Nat}
    {sub : Option (List Entry)} {p : String} :
    p ∈ paths_ent o dp (Entry.mk n st sub) ↔
      ¬ (n = "." ∨ n = "..") ∧ ∃ m, st = some m ∧
        ((type_match o m = true ∧ p = dp ++ "/" ++ n) ∨
         (S_ISDIR m = true ∧ S_ISLNK m = false ∧ p ∈ paths_dir o (dp ++ "/" ++ n) sub)) := by
  by_cases hn : n = "." ∨ n = ".."
  · simp [paths_ent, walk_body_dot _ _ _ _ _ _ hn, arr_init, hn]
  · cases st with
    | none => simp [paths_ent, walk_body_failed, arr_init]
    | some m =>
      rw [paths_ent_eq _ _ _ _ _ hn]
      by_cases ht : type_match o m = true <;>
        by_cases hd : S_ISDIR m = true <;>
          by_cases hl : S_ISLNK m = true <;> simp [ht, hd, hl, hn]

theorem mem_paths_list {o : Opts} {dp : String} {l : List Entry} {p : String} :
    p ∈ paths_list o dp l ↔ ∃ e ∈ l, p ∈ paths_ent o dp e := by
  induction l with
  | nil => simp [paths_list_nil]
  | cons e l ih => simp [paths_list_cons, ih]

theorem S_ISLNK_not_dir {m : Nat} (h : S_ISLNK m = true) : S_ISDIR m = false := by
  simp only [S_ISLNK, S_ISDIR, beq_iff_eq, beq_eq_false_iff_ne] at *
  rw [h]; decide

theorem S_ISLNK_not_reg {m : Nat} (h : S_ISLNK m = true) : S_ISREG m = false := by
  simp only [S_ISLNK, S_ISREG, beq_iff_eq, beq_eq_false_iff_ne] at *
  rw [h]; decide

/-- C1: for every flag setting and every `st_mode`, `type_match` is true exactly when
no filter flag is set or the kind of the entry itself is one of the enabled kinds
(symbolic link with `-l`, directory with `-d`, regular file with `-f`). -/
theorem type_match_iff (o : Opts) (m : Nat) :
    type_match o m = true ↔
      (o.opt_l = false ∧ o.opt_d = false ∧ o.opt_f = false) ∨
      (o.opt_l = true ∧ S_ISLNK m = true) ∨
      (o.opt_d = true ∧ S_ISDIR m = true) ∨
      (o.opt_f = true ∧ S_ISREG m = true) := by
  unfold type_match
  cases o.opt_l <;> cases o.opt_d <;> cases o.opt_f <;>
    cases S_ISLNK m <;> cases S_ISDIR m <;> cases S_ISREG m <;> simp

theorem beneath_join (dp n : String) : beneath (dp ++ "/" ++ n) dp := ⟨n, rfl⟩

theorem beneath_trans {a b c : String} (h1 : beneath a b) (h2 : beneath b c) :
    beneath a c := by
  obtain ⟨r1, rfl⟩ := h1
  obtain ⟨r2, rfl⟩ := h2
  exact ⟨r2 ++ "/" ++ r1, by simp [String.append_assoc]⟩

theorem beneath_length {a b : String} (h : beneath a b) : b.length < a.length := by
  obtain ⟨r, rfl⟩ := h
  simp only [String.length_append]
  have : "/".length = 1 := rfl
  omega

theorem beneath_ne {a b : String} (h : beneath a b) : a ≠ b := by
  intro e
  have := beneath_length h
  rw [e] at this
  exact lt_irrefl _ this

theorem beneath_irrefl (a : String) : ¬ beneath a a := fun h => beneath_ne h rfl

theorem paths_list_beneath (o : Opts) (l : List Entry) :
    ∀ (dp p : String), p ∈ paths_list o dp l → beneath p dp := by
  induction l using Entry.list_induct with
  | nil => intro dp p hp; simp [paths_list_nil] at hp
  | cons_closed n st l ih =>
    intro dp p hp
    rw [paths_list_cons, List.mem_append] at hp
    rcases hp with hp | hp
    · obtain ⟨_, m, _, h | h⟩ := mem_paths_ent.mp hp
      · rw [h.2]; exact beneath_join dp n
      · simp [paths_dir_none] at h
    · exact ih dp p hp
  | cons_open n st s l ihs ih =>
    intro dp p hp
    rw [paths_list_cons, List.mem_append] at hp
    rcases hp with hp | hp
    · obtain ⟨_, m, _, h | h⟩ := mem_paths_ent.mp hp
      · rw [h.2]; exact beneath_join dp n
      · rw [paths_dir_some] at h
        exact beneath_trans (ihs _ p h.2.2) (beneath_join dp n)
    · exact ih dp p hp

theorem paths_dir_beneath (o : Opts) (dir : Option (List Entry)) (dp p : String)
    (hp : p ∈ paths_dir o dp dir) : beneath p dp := by
  cases dir with
  | none => simp [paths_dir_none] at hp
  | some l => rw [paths_dir_some] at hp; exact paths_list_beneath o l dp p hp

/-- C6: whatever the tree, the start directory string, the flags and the collector
handed in, every path `walk` appends is the start string followed by `/` and more,
and differs from the start string: the start directory itself is never emitted. -/
theorem walk_paths_under_start (o : Opts) (start : String)
    (root : Option (List Entry)) (out : str_array_t) :
    ∃ new : List String, (walk o start root out).items = out.items ++ new ∧
      ∀ p ∈ new, (∃ r : String, p = start ++ "/" ++ r) ∧ p ≠ start := by
  refine ⟨paths_dir o start root, walk_items o start root out, ?_⟩
  intro p hp
  have h := paths_dir_beneath o root start p hp
  exact ⟨h, beneath_ne h⟩

theorem paths_list_three_kinds (o o2 : Opts)
    (ho : o.opt_l = true ∧ o.opt_d = true ∧ o.opt_f = true)
    (ho2 : o2.opt_l = false ∧ o2.opt_d = false ∧ o2.opt_f = false) (l : List Entry) :
    three_kinds_list l = true → ∀ dp : String, paths_list o dp l = paths_list o2 dp l := by
  have key : ∀ m, (S_ISLNK m || S_ISDIR m || S_ISREG m) = true →
      type_match o m = type_match o2 m := by
    intro m hm
    have h1 : type_match o m = true := by
      rw [type_match_iff]
      simp only [Bool.or_eq_true] at hm
      rcases hm with (hm | hm) | hm
      · exact Or.inr (Or.inl ⟨ho.1, hm⟩)
      · exact Or.inr (Or.inr (Or.inl ⟨ho.2.1, hm⟩))
      · exact Or.inr (Or.inr (Or.inr ⟨ho.2.2, hm⟩))
    have h2 : type_match o2 m = true := (type_match_iff o2 m).mpr (Or.inl ho2)
    rw [h1, h2]
  induction l using Entry.list_induct with
  | nil => intro _ dp; simp [paths_list_nil]
  | cons_closed n st l ih =>
    intro h dp
    simp only [three_kinds_list, three_kinds_ent, three_kinds_dir, Bool.and_eq_true] at h
    rw [paths_list_cons, paths_list_cons, ih h.2 dp]
    congr 1
    by_cases hn : n = "." ∨ n = ".."
    · simp [paths_ent, walk_body_dot _ _ _ _ _ _ hn]
    · cases st with
      | none => simp [paths_ent, walk_body_failed]
      | some m =>
        rw [paths_ent_eq _ _ _ _ _ hn, paths_ent_eq _ _ _ _ _ hn, key m h.1.1]
        simp [paths_dir_none]
  | cons_open n st s l ihs ih =>
    intro h dp
    simp only [three_kinds_list, three_kinds_ent, three_kinds_dir, Bool.and_eq_true] at h
    rw [paths_list_cons, paths_list_cons, ih h.2 dp]
    congr 1
    by_cases hn : n = "." ∨ n = ".."
    · simp [paths_ent, walk_body_dot _ _ _ _ _ _ hn]
    · cases st with
      | none => simp [paths_ent, walk_body_failed]
      | some m =>
        rw [paths_ent_eq _ _ _ _ _ hn, paths_ent_eq _ _ _ _ _ hn, key m h.1.1,
          paths_dir_some, paths_dir_some, ihs h.1.2]

/-- C2 (as stated, refuted): a tree holding one FIFO `p` (`st_mode` 010644).  With
`-l -d -f` the walk emits nothing, without filter flags it emits `./p`: the two
sequences differ. -/
theorem all_filters_differ_on_fifo :
    (walk ⟨true, true, true, false⟩ "." (some [Entry.mk "p" (some 0o010644) none])
        arr_init).items = [] ∧
    (walk ⟨false, false, false, false⟩ "." (some [Entry.mk "p" (some 0o010644) none])
        arr_init).items = ["./p"] ∧
    (walk ⟨true, true, true, false⟩ "." (some [Entry.mk "p" (some 0o010644) none])
        arr_init).items ≠
    (walk ⟨false, false, false, false⟩ "." (some [Entry.mk "p" (some 0o010644) none])
        arr_init).items := by
  decide

/-- C2 (amended): on a tree in which every entry whose `lstat` succeeds is a symbolic
link, a directory or a regular file, the walk with `-l -d -f` all set appends the same
sequence of paths as the walk with no filter flag set. -/
theorem all_filters_eq_no_filter (o o2 : Opts) (start : String)
    (root : Option (List Entry)) (out : str_array_t)
    (ho : o.opt_l = true ∧ o.opt_d = true ∧ o.opt_f = true)
    (ho2 : o2.opt_l = false ∧ o2.opt_d = false ∧ o2.opt_f = false)
    (hk : three_kinds_dir root = true) :
    (walk o start root out).items = (walk o2 start root out).items := by
  rw [walk_items, walk_items]
  congr 1
  cases root with
  | none => simp [paths_dir_none]
  | some l =>
    rw [paths_dir_some, paths_dir_some]
    exact paths_list_three_kinds o o2 ho ho2 l (by simpa [three_kinds_dir] using hk) start

/-- Witness of C2 (amended): a directory `a` holding a regular file `b`, and a symbolic
link `l`. -/
theorem all_filters_eq_no_filter_witness :
    three_kinds_dir
      (some [Entry.mk "a" (some 0o040755) (some [Entry.mk "b" (some 0o100644) none]),
             Entry.mk "l" (some 0o120777) none]) = true ∧
    (walk ⟨true, true, true, false⟩ "."
      (some [Entry.mk "a" (some 0o040755) (some [Entry.mk "b" (some 0o100644) none]),
             Entry.mk "l" (some 0o120777) none]) arr_init).items =
    (walk ⟨false, false, false, false⟩ "."
      (some [Entry.mk "a" (some 0o040755) (some [Entry.mk "b" (some 0o100644) none]),
             Entry.mk "l" (some 0o120777) none]) arr_init).items :=
  ⟨by decide, all_filters_eq_no_filter _ _ _ _ _ (by decide) (by decide) (by decide)⟩

theorem slash_split {a b r x : List Char} (ha : '/' ∉ a) (hb : '/' ∉ b)
    (hr : r = [] ∨ ∃ y, r = '/' :: y) (h : a ++ r = b ++ '/' :: x) : a = b := by
  induction a generalizing b with
  | nil =>
    cases b with
    | nil => rfl
    | cons c b2 =>
      exfalso
      rcases hr with hr | ⟨y, hr⟩
      · rw [hr] at h; simp at h
      · rw [hr] at h
        simp only [List.nil_append, List.cons_append, List.cons.injEq] at h
        exact hb (by rw [← h.1]; exact List.mem_cons_self _ _)
  | cons c a2 ih =>
    cases b with
    | nil =>
      exfalso
      simp only [List.cons_append, List.nil_append, List.cons.injEq] at h
      exact ha (by rw [h.1]; exact List.mem_cons_self _ _)
    | cons d b2 =>
      simp only [List.cons_append, List.cons.injEq] at h
      rw [h.1, ih (fun hm => ha (List.mem_cons_of_mem _ hm))
        (fun hm => hb (List.mem_cons_of_mem _ hm)) h.2]

theorem under_data {q base : String} (h : q = base ∨ beneath q base) :
    ∃ r, q.data = base.data ++ r ∧ (r = [] ∨ ∃ y, r = '/' :: y) := by
  rcases h with h | ⟨r, h⟩
  · exact ⟨[], by simp [h], Or.inl rfl⟩
  · exact ⟨'/' :: r.data, by simp [h], Or.inr ⟨_, rfl⟩⟩

theorem name_cancel {dp n1 n2 q : String} (h1 : '/' ∉ n1.data) (h2 : '/' ∉ n2.data)
    (hq1 : q = dp ++ "/" ++ n1 ∨ beneath q (dp ++ "/" ++ n1))
    (hq2 : beneath q (dp ++ "/" ++ n2)) : n1 = n2 := by
  obtain ⟨r, hr, hshape⟩ := under_data hq1
  obtain ⟨x, hx⟩ := hq2
  have hx2 : q.data = (dp ++ "/" ++ n2).data ++ '/' :: x.data := by simp [hx]
  rw [hx2] at hr
  simp only [String.data_append, List.append_assoc, List.append_cancel_left_eq] at hr
  exact String.ext (slash_split h1 h2 hshape hr.symm)

theorem name_cancel_under {dp n1 n2 q : String} (h1 : '/' ∉ n1.data)
    (h2 : '/' ∉ n2.data)
    (hq1 : q = dp ++ "/" ++ n1 ∨ beneath q (dp ++ "/" ++ n1))
    (hq2 : q = dp ++ "/" ++ n2 ∨ beneath q (dp ++ "/" ++ n2)) : n1 = n2 := by
  rcases hq2 with hq2 | hq2
  · rcases hq1 with hq1 | hq1
    · rw [hq1] at hq2
      apply String.ext
      have := congrArg String.data hq2
      simpa using this
    · exact (name_cancel h2 h1 (Or.inl hq2) hq1).symm
  · exact name_cancel h1 h2 hq1 hq2

theorem paths_ent_under {o : Opts} {dp p : String} {e : Entry}
    (hp : p ∈ paths_ent o dp e) :
    p = dp ++ "/" ++ e.d_name ∨ beneath p (dp ++ "/" ++ e.d_name) := by
  cases e with
  | mk n st sub =>
    obtain ⟨_, m, _, h | h⟩ := mem_paths_ent.mp hp
    · exact Or.inl h.2
    · exact Or.inr (paths_dir_beneath o sub _ p h.2.2)

theorem wf_list_cons {e : Entry} {l : List Entry} :
    wf_list (e :: l) = true ↔
      wf_ent e = true ∧ (∀ e2 ∈ l, e2.d_name ≠ e.d_name) ∧ wf_list l = true := by
  simp [wf_list, and_assoc]

theorem wf_ent_mk {n : String} {st : Option Nat} {sub : Option (List Entry)} :
    wf_ent (Entry.mk n st sub) = true ↔ '/' ∉ n.data ∧ wf_dir sub = true := by
  simp [wf_ent]

theorem wf_ent_name {e : Entry} (h : wf_ent e = true) : '/' ∉ e.d_name.data := by
  cases e with
  | mk n st sub => exact (wf_ent_mk.mp h).1

theorem wf_list_mem {l : List Entry} (h : wf_list l = true) :
    ∀ e ∈ l, wf_ent e = true := by
  induction l with
  | nil => intro e he; cases he
  | cons a l ih =>
    intro e he
    obtain ⟨h1, _, h3⟩ := wf_list_cons.mp h
    rcases List.mem_cons.mp he with rfl | he
    · exact h1
    · exact ih h3 e he

theorem paths_ent_nodup (o : Opts) (dp n : String) (st : Option Nat)
    (sub : Option (List Entry)) (hsub : (paths_dir o (dp ++ "/" ++ n) sub).Nodup) :
    (paths_ent o dp (Entry.mk n st sub)).Nodup := by
  by_cases hn : n = "." ∨ n = ".."
  · simp [paths_ent, walk_body_dot _ _ _ _ _ _ hn, arr_init]
  · cases st with
    | none => simp [paths_ent, walk_body_failed, arr_init]
    | some m =>
      rw [paths_ent_eq _ _ _ _ _ hn]
      have hnot : dp ++ "/" ++ n ∉ paths_dir o (dp ++ "/" ++ n) sub :=
        fun hm => beneath_irrefl _ (paths_dir_beneath o sub _ _ hm)
      by_cases ht : type_match o m = true <;>
        by_cases hd : (S_ISDIR m && !S_ISLNK m) = true <;>
          simp [ht, hd, hsub, hnot]

theorem paths_list_nodup (o : Opts) (l : List Entry) :
    wf_list l = true → ∀ dp : String, (paths_list o dp l).Nodup := by
  have cross : ∀ (dp : String) (e : Entry) (l : List Entry), wf_list (e :: l) = true →
      List.Disjoint (paths_ent o dp e) (paths_list o dp l) := by
    intro dp e l h p hp1 hp2
    obtain ⟨h1, h2, h3⟩ := wf_list_cons.mp h
    obtain ⟨e2, he2, hp2⟩ := mem_paths_list.mp hp2
    exact h2 e2 he2 (name_cancel_under (wf_ent_name (wf_list_mem h3 e2 he2))
      (wf_ent_name h1) (paths_ent_under hp2) (paths_ent_under hp1))
  induction l using Entry.list_induct with
  | nil => intro _ dp; simp [paths_list_nil]
  | cons_closed n st l ih =>
    intro h dp
    rw [paths_list_cons, List.nodup_append]
    refine ⟨paths_ent_nodup o dp n st none (by simp [paths_dir_none]),
      ih (wf_list_cons.mp h).2.2 dp, cross dp _ l h⟩
  | cons_open n st s l ihs ih =>
    intro h dp
    rw [paths_list_cons, List.nodup_append]
    have hs : wf_list s = true := by
      have := (wf_ent_mk.mp (wf_list_cons.mp h).1).2
      simpa [wf_dir] using this
    refine ⟨paths_ent_nodup o dp n st (some s) (by rw [paths_dir_some]; exact ihs hs _),
      ih (wf_list_cons.mp h).2.2 dp, cross dp _ l h⟩

/-- C7: on a tree in which the names inside one directory are pairwise distinct and
contain no `/` (non-emptiness of the names is not needed), for every start directory
and flag setting, the result of `walk` on the empty collector holds no path twice. -/
theorem walk_no_duplicates (o : Opts) (start : String) (root : Option (List Entry))
    (hwf : wf_dir root = true) : (walk o start root arr_init).items.Nodup := by
  show (paths_dir o start root).Nodup
  cases root with
  | none => simp [paths_dir_none]
  | some l =>
    rw [paths_dir_some]
    exact paths_list_nodup o l (by simpa [wf_dir] using hwf) start

/-- Witness of C7: a directory `a` holding a file `b`, next to a file `b`. -/
theorem walk_no_duplicates_witness :
    wf_dir (some [Entry.mk "a" (some 0o040755) (some [Entry.mk "b" (some 0o100644) none]),
                  Entry.mk "b" (some 0o100644) none]) = true ∧
    (walk ⟨false, false, false, false⟩ "."
      (some [Entry.mk "a" (some 0o040755) (some [Entry.mk "b" (some 0o100644) none]),
             Entry.mk "b" (some 0o100644) none]) arr_init).items.Nodup :=
  ⟨by decide, walk_no_duplicates _ _ _ (by decide)⟩

theorem paths_ent_preorder (o : Opts) (dp n : String) (st : Option Nat)
    (sub : Option (List Entry))
    (hsub : (paths_dir o (dp ++ "/" ++ n) sub).Pairwise (fun a b => ¬ beneath a b)) :
    (paths_ent o dp (Entry.mk n st sub)).Pairwise (fun a b => ¬ beneath a b) := by
  by_cases hn : n = "." ∨ n = ".."
  · simp [paths_ent, walk_body_dot _ _ _ _ _ _ hn, arr_init]
  · cases st with
    | none => simp [paths_ent, walk_body_failed, arr_init]
    | some m =>
      rw [paths_ent_eq _ _ _ _ _ hn]
      have hnot : ∀ b ∈ paths_dir o (dp ++ "/" ++ n) sub, ¬ beneath (dp ++ "/" ++ n) b :=
        fun b hb hm => beneath_irrefl _ (beneath_trans hm (paths_dir_beneath o sub _ _ hb))
      by_cases ht : type_match o m = true <;>
        by_cases hd : (S_ISDIR m && !S_ISLNK m) = true <;>
          simp [ht, hd, hsub]
      exact hnot

theorem paths_list_preorder (o : Opts) (l : List Entry) :
    wf_list l = true → ∀ dp : String,
      (paths_list o dp l).Pairwise (fun a b => ¬ beneath a b) := by
  have cross : ∀ (dp : String) (e : Entry) (l : List Entry), wf_list (e :: l) = true →
      ∀ a ∈ paths_ent o dp e, ∀ b ∈ paths_list o dp l, ¬ beneath a b := by
    intro dp e l h a ha b hb hab
    obtain ⟨h1, h2, h3⟩ := wf_list_cons.mp h
    obtain ⟨e2, he2, hb⟩ := mem_paths_list.mp hb
    have hb2 : beneath a (dp ++ "/" ++ e2.d_name) := by
      rcases paths_ent_under hb with hb | hb
      · rw [← hb]; exact hab
      · exact beneath_trans hab hb
    exact h2 e2 he2 (name_cancel (wf_ent_name h1)
      (wf_ent_name (wf_list_mem h3 e2 he2)) (paths_ent_under ha) hb2).symm
  induction l using Entry.list_induct with
  | nil => intro _ dp; simp [paths_list_nil]
  | cons_closed n st l ih =>
    intro h dp
    rw [paths_list_cons, List.pairwise_append]
    refine ⟨paths_ent_preorder o dp n st none (by simp [paths_dir_none]),
      ih (wf_list_cons.mp h).2.2 dp, cross dp _ l h⟩
  | cons_open n st s l ihs ih =>
    intro h dp
    rw [paths_list_cons, List.pairwise_append]
    have hs : wf_list s = true := by
      have := (wf_ent_mk.mp (wf_list_cons.mp h).1).2
      simpa [wf_dir] using this
    refine ⟨paths_ent_preorder o dp n st (some s) (by rw [paths_dir_some]; exact ihs hs _),
      ih (wf_list_cons.mp h).2.2 dp, cross dp _ l h⟩

/-- C5: on a tree as `readdir` delivers it (names inside one directory pairwise distinct
and free of `/`), for every flag setting, in the unsorted result of `walk` a path `p`
stands at an earlier index than every path `q` of the result that lies beneath it:
a matched directory is emitted before everything emitted from inside it. -/
theorem walk_preorder (o : Opts) (start : String) (root : Option (List Entry))
    (hwf : wf_dir root = true) (i j : Nat) (p q : String)
    (hp : (walk o start root arr_init).items[i]? = some p)
    (hq : (walk o start root arr_init).items[j]? = some q)
    (hpq : beneath q p) : i < j := by
  have hpw : (paths_dir o start root).Pairwise (fun a b => ¬ beneath a b) := by
    cases root with
    | none => simp [paths_dir_none]
    | some l =>
      rw [paths_dir_some]
      exact paths_list_preorder o l (by simpa [wf_dir] using hwf) start
  change (paths_dir o start root)[i]? = some p at hp
  change (paths_dir o start root)[j]? = some q at hq
  obtain ⟨hi, hpi⟩ := List.getElem?_eq_some.mp hp
  obtain ⟨hj, hqj⟩ := List.getElem?_eq_some.mp hq
  rcases Nat.lt_trichotomy i j with h | h | h
  · exact h
  · subst h
    rw [hpi] at hqj
    rw [hqj] at hpq
    exact absurd hpq (beneath_irrefl _)
  · have := List.pairwise_iff_getElem.mp hpw j i hj hi h
    rw [hpi, hqj] at this
    exact absurd hpq this

/-- Witness of C5: a directory `a` holding a file `b`; `./a` (index 0) precedes
`./a/b` (index 1). -/
theorem walk_preorder_witness :
    wf_dir (some [Entry.mk "a" (some 0o040755)
      (some [Entry.mk "b" (some 0o100644) none])]) = true ∧
    (walk ⟨false, false, false, false⟩ "." (some [Entry.mk "a" (some 0o040755)
      (some [Entry.mk "b" (some 0o100644) none])]) arr_init).items[0]? = some "./a" ∧
    (walk ⟨false, false, false, false⟩ "." (some [Entry.mk "a" (some 0o040755)
      (some [Entry.mk "b" (some 0o100644) none])]) arr_init).items[1]? = some "./a/b" ∧
    beneath "./a/b" "./a" ∧ 0 < 1 :=
  ⟨by decide, by decide, by decide, ⟨"b", by decide⟩,
    walk_preorder ⟨false, false, false, false⟩ "." (some [Entry.mk "a" (some 0o040755)
      (some [Entry.mk "b" (some 0o100644) none])]) (by decide) 0 1 "./a" "./a/b"
      (by decide) (by decide) ⟨"b", by decide⟩⟩

theorem entries_list_nil (dp : String) : entries_list dp [] = [] := by
  simp [entries_list]

theorem entries_list_cons (dp : String) (e : Entry) (l : List Entry) :
    entries_list dp (e :: l) = entries_ent dp e ++ entries_list dp l := by
  simp [entries_list]

theorem entries_ent_mk (dp n : String) (st : Option Nat) (sub : Option (List Entry)) :
    entries_ent dp (Entry.mk n st sub) =
      (dp ++ "/" ++ n, st) :: entries_dir (dp ++ "/" ++ n) sub := by
  simp [entries_ent]

theorem entries_dir_none (dp : String) : entries_dir dp none = [] := by
  simp [entries_dir]

theorem entries_dir_some (dp : String) (l : List Entry) :
    entries_dir dp (some l) = entries_list dp l := by
  simp [entries_dir]

theorem mem_entries_list {dp : String} {l : List Entry} {x : String × Option Nat} :
    x ∈ entries_list dp l ↔ ∃ e ∈ l, x ∈ entries_ent dp e := by
  induction l with
  | nil => simp [entries_list_nil]
  | cons e l ih => simp [entries_list_cons, ih]

theorem entries_list_beneath (l : List Entry) :
    ∀ (dp : String) (x : String × Option Nat), x ∈ entries_list dp l → beneath x.1 dp := by
  induction l using Entry.list_induct with
  | nil => intro dp x hx; simp [entries_list_nil] at hx
  | cons_closed n st l ih =>
    intro dp x hx
    rw [entries_list_cons, List.mem_append, entries_ent_mk, entries_dir_none] at hx
    rcases hx with hx | hx
    · rw [List.mem_singleton] at hx
      rw [hx]; exact beneath_join dp n
    · exact ih dp x hx
  | cons_open n st s l ihs ih =>
    intro dp x hx
    rw [entries_list_cons, List.mem_append, entries_ent_mk, entries_dir_some,
      List.mem_cons] at hx
    rcases hx with (hx | hx) | hx
    · rw [hx]; exact beneath_join dp n
    · exact beneath_trans (ihs _ x hx) (beneath_join dp n)
    · exact ih dp x hx

theorem entries_dir_beneath (dir : Option (List Entry)) (dp : String)
    (x : String × Option Nat) (hx : x ∈ entries_dir dp dir) : beneath x.1 dp := by
  cases dir with
  | none => simp [entries_dir_none] at hx
  | some l => rw [entries_dir_some] at hx; exact entries_list_beneath l dp x hx

theorem entries_ent_under {dp : String} {e : Entry} {x : String × Option Nat}
    (hx : x ∈ entries_ent dp e) :
    x.1 = dp ++ "/" ++ e.d_name ∨ beneath x.1 (dp ++ "/" ++ e.d_name) := by
  cases e with
  | mk n st sub =>
    rw [entries_ent_mk, List.mem_cons] at hx
    rcases hx with hx | hx
    · exact Or.inl (by rw [hx]; rfl)
    · exact Or.inr (entries_dir_beneath sub _ x hx)

/-- The link between the result of the walk and the entries of a well-formed tree: an
emitted path that is the path of an entry passed `type_match` on the `st_mode` of that
entry, and an emitted path beneath an entry was reached through a real directory. -/
theorem paths_list_entries (o : Opts) (l : List Entry) :
    wf_list l = true → ∀ (dp p s : String) (st : Option Nat),
      p ∈ paths_list o dp l → (s, st) ∈ entries_list dp l →
      (p = s → ∃ m, st = some m ∧ type_match o m = true) ∧
      (beneath p s → ∃ m, st = some m ∧ S_ISDIR m = true ∧ S_ISLNK m = false) := by
  have apart : ∀ (dp p s : String) (n1 n2 : String), '/' ∉ n1.data → '/' ∉ n2.data →
      n1 ≠ n2 → (p = dp ++ "/" ++ n1 ∨ beneath p (dp ++ "/" ++ n1)) →
      (s = dp ++ "/" ++ n2 ∨ beneath s (dp ++ "/" ++ n2)) →
      ¬ (p = s ∨ beneath p s) := by
    intro dp p s n1 n2 h1 h2 hne hp hs hps
    apply hne
    refine name_cancel_under h1 h2 hp ?_
    rcases hps with hps | hps
    · rw [hps]; exact hs
    · rcases hs with hs | hs
      · rw [← hs]; exact Or.inr hps
      · exact Or.inr (beneath_trans hps hs)
  have step : ∀ (n : String) (ste : Option Nat) (sub : Option (List Entry))
      (l : List Entry),
      (∀ (dp p s : String) (st : Option Nat), p ∈ paths_dir o dp sub →
        (s, st) ∈ entries_dir dp sub →
        (p = s → ∃ m, st = some m ∧ type_match o m = true) ∧
        (beneath p s → ∃ m, st = some m ∧ S_ISDIR m = true ∧ S_ISLNK m = false)) →
      (wf_list l = true → ∀ (dp p s : String) (st : Option Nat),
        p ∈ paths_list o dp l → (s, st) ∈ entries_list dp l →
        (p = s → ∃ m, st = some m ∧ type_match o m = true) ∧
        (beneath p s → ∃ m, st = some m ∧ S_ISDIR m = true ∧ S_ISLNK m = false)) →
      wf_list (Entry.mk n ste sub :: l) = true →
      ∀ (dp p s : String) (st : Option Nat),
        p ∈ paths_list o dp (Entry.mk n ste sub :: l) →
        (s, st) ∈ entries_list dp (Entry.mk n ste sub :: l) →
        (p = s → ∃ m, st = some m ∧ type_match o m = true) ∧
        (beneath p s → ∃ m, st = some m ∧ S_ISDIR m = true ∧ S_ISLNK m = false) := by
    intro n ste sub l ihs ih h dp p s st hp hs
    obtain ⟨h1, h2, h3⟩ := wf_list_cons.mp h
    have hn : '/' ∉ n.data := (wf_ent_mk.mp h1).1
    rw [paths_list_cons, List.mem_append] at hp
    rw [entries_list_cons, List.mem_append] at hs
    rcases hp with hp | hp <;> rcases hs with hs | hs
    · -- both from the first entry
      obtain ⟨_, m, hm, hp | hp⟩ := mem_paths_ent.mp hp
      · -- p is the path of the entry itself
        rw [entries_ent_mk, List.mem_cons] at hs
        rcases hs with hs | hs
        · simp only [Prod.mk.injEq] at hs
          refine ⟨fun _ => ⟨m, by rw [hs.2, hm], hp.1⟩, fun hb => ?_⟩
          rw [hp.2, hs.1] at hb
          exact absurd hb (beneath_irrefl _)
        · have hsb : beneath s p := by
            rw [hp.2]; exact entries_dir_beneath sub _ _ hs
          refine ⟨fun e => ?_, fun hb => ?_⟩
          · rw [e] at hsb; exact absurd hsb (beneath_irrefl _)
          · exact absurd (beneath_trans hb hsb) (beneath_irrefl _)
      · -- p comes from the walk of the entry
        rw [entries_ent_mk, List.mem_cons] at hs
        rcases hs with hs | hs
        · simp only [Prod.mk.injEq] at hs
          have hpb := paths_dir_beneath o sub _ p hp.2.2
          refine ⟨fun e => ?_, fun _ => ⟨m, by rw [hs.2, hm], hp.1, hp.2.1⟩⟩
          rw [e, hs.1] at hpb
          exact absurd hpb (beneath_irrefl _)
        · exact ihs _ p s st hp.2.2 hs
    · -- p from the first entry, s from a later one
      obtain ⟨e2, he2, hs⟩ := mem_entries_list.mp hs
      have hno := apart dp p s n e2.d_name hn (wf_ent_name (wf_list_mem h3 e2 he2))
        (fun e => h2 e2 he2 e.symm) (paths_ent_under hp) (entries_ent_under hs)
      exact ⟨fun e => absurd (Or.inl e) hno, fun e => absurd (Or.inr e) hno⟩
    · -- p from a later entry, s from the first one
      obtain ⟨e2, he2, hp⟩ := mem_paths_list.mp hp
      have hno := apart dp p s e2.d_name n (wf_ent_name (wf_list_mem h3 e2 he2)) hn
        (h2 e2 he2) (paths_ent_under hp) (entries_ent_under hs)
      exact ⟨fun e => absurd (Or.inl e) hno, fun e => absurd (Or.inr e) hno⟩
    · exact ih h3 dp p s st hp hs
  induction l using Entry.list_induct with
  | nil => intro _ dp p s st hp; simp [paths_list_nil] at hp
  | cons_closed n st l ih =>
    exact step n st none l (fun dp p s st hp => by simp [paths_dir_none] at hp) ih
  | cons_open n st s l ihs ih =>
    intro h
    have hs : wf_list s = true := by
      have := (wf_ent_mk.mp (wf_list_cons.mp h).1).2
      simpa [wf_dir] using this
    exact step n st (some s) l
      (fun dp p s2 st2 hp hs2 => by
        rw [paths_dir_some] at hp
        rw [entries_dir_some] at hs2
        exact ihs hs dp p s2 st2 hp hs2) ih h

theorem paths_dir_entries (o : Opts) (root : Option (List Entry))
    (hwf : wf_dir root = true) (dp p s : String) (st : Option Nat)
    (hp : p ∈ paths_dir o dp root) (hs : (s, st) ∈ entries_dir dp root) :
    (p = s → ∃ m, st = some m ∧ type_match o m = true) ∧
    (beneath p s → ∃ m, st = some m ∧ S_ISDIR m = true ∧ S_ISLNK m = false) := by
  cases root with
  | none => simp [paths_dir_none] at hp
  | some l =>
    rw [paths_dir_some] at hp
    rw [entries_dir_some] at hs
    exact paths_list_entries o l (by simpa [wf_dir] using hwf) dp p s st hp hs

/-- C3: with `-l` not set and at least one of `-d`, `-f` set, `type_match` is false on
every `st_mode` that is a symbolic link (the target plays no part: only the mode of the
link itself is looked at); hence the loop iteration for such an entry leaves the
collector as it was, and on a tree as `readdir` delivers it no path of a symbolic-link
entry is in the result of `walk`. -/
theorem symlink_rejected_by_dir_and_file_filters (o : Opts) (hl : o.opt_l = false)
    (hdf : o.opt_d = true ∨ o.opt_f = true) :
    (∀ m, S_ISLNK m = true → type_match o m = false) ∧
    (∀ dp n m sub out, S_ISLNK m = true →
      walk_body o dp (Entry.mk n (some m) sub) out = out) ∧
    (∀ start root, wf_dir root = true →
      ∀ s m, (s, some m) ∈ entries_dir start root → S_ISLNK m = true →
        s ∉ (walk o start root arr_init).items) := by
  have h1 : ∀ m, S_ISLNK m = true → type_match o m = false := by
    intro m hm
    rw [← Bool.not_eq_true, type_match_iff]
    rintro (h | h | h | h)
    · rcases hdf with hd | hf
      · rw [h.2.1] at hd; cases hd
      · rw [h.2.2] at hf; cases hf
    · rw [hl] at h; cases h.1
    · rw [S_ISLNK_not_dir hm] at h; cases h.2
    · rw [S_ISLNK_not_reg hm] at h; cases h.2
  refine ⟨h1, ?_, ?_⟩
  · intro dp n m sub out hm
    by_cases hn : n = "." ∨ n = ".."
    · exact walk_body_dot _ _ _ _ _ _ hn
    · rw [walk_body_eq _ _ _ _ _ _ hn]
      simp [h1 m hm, S_ISLNK_not_dir hm]
  · intro start root hwf s m hs hm hmem
    obtain ⟨m2, e, ht⟩ := (paths_dir_entries o root hwf start s s (some m) hmem hs).1 rfl
    cases e
    rw [h1 m hm] at ht
    cases ht

/-- Witness of C3: under `-d`, a directory `x` and a symbolic link `link` to it; opening
`link` would list the file `y`. -/
theorem symlink_rejected_by_dir_and_file_filters_witness :
    (⟨false, true, false, false⟩ : Opts).opt_l = false ∧
    ((⟨false, true, false, false⟩ : Opts).opt_d = true ∨
      (⟨false, true, false, false⟩ : Opts).opt_f = true) ∧
    type_match ⟨false, true, false, false⟩ 0o120777 = false ∧
    "./link" ∉ (walk ⟨false, true, false, false⟩ "."
      (some [Entry.mk "x" (some 0o040755) (some [Entry.mk "y" (some 0o100644) none]),
             Entry.mk "link" (some 0o120777) (some [Entry.mk "y" (some 0o100644) none])])
      arr_init).items :=
  ⟨rfl, Or.inl rfl,
    (symlink_rejected_by_dir_and_file_filters ⟨false, true, false, false⟩ rfl
      (Or.inl rfl)).1 0o120777 (by decide),
    (symlink_rejected_by_dir_and_file_filters ⟨false, true, false, false⟩ rfl
      (Or.inl rfl)).2.2 "." _ (by decide) "./link" 0o120777 (by decide) (by decide)⟩

/-- C4: a loop iteration of `walk` whose entry is not a directory by its `lstat` mode
(a symbolic link in particular) never looks at what lies beneath the entry; consequently,
on a tree as `readdir` delivers it, every entry that has a path of the result strictly
beneath it is a directory and not a symbolic link, and no path of the result lies
strictly beneath an entry that is a symbolic link, whatever opening the link yields. -/
theorem walk_never_descends_into_symlink (o : Opts) (start : String)
    (root : Option (List Entry)) (hwf : wf_dir root = true) :
    (∀ dp n m sub out, (S_ISDIR m && !S_ISLNK m) = false →
      walk_body o dp (Entry.mk n (some m) sub) out =
        walk_body o dp (Entry.mk n (some m) none) out) ∧
    (∀ s st, (s, st) ∈ entries_dir start root →
      ∀ p ∈ (walk o start root arr_init).items, beneath p s →
        ∃ m, st = some m ∧ S_ISDIR m = true ∧ S_ISLNK m = false) ∧
    (∀ s m, (s, some m) ∈ entries_dir start root → S_ISLNK m = true →
      ∀ p ∈ (walk o start root arr_init).items, ¬ beneath p s) := by
  refine ⟨?_, ?_, ?_⟩
  · intro dp n m sub out hd
    by_cases hn : n = "." ∨ n = ".."
    · rw [walk_body_dot _ _ _ _ _ _ hn, walk_body_dot _ _ _ _ _ _ hn]
    · rw [walk_body_eq _ _ _ _ _ _ hn, walk_body_eq _ _ _ _ _ _ hn]
      simp [hd]
  · intro s st hs p hp hb
    exact (paths_dir_entries o root hwf start p s st hp hs).2 hb
  · intro s m hs hm p hp hb
    obtain ⟨m2, e, _, h2⟩ := (paths_dir_entries o root hwf start p s (some m) hp hs).2 hb
    cases e
    rw [hm] at h2
    cases h2

/-- Witness of C4: a directory `x` holding `y`, and a symbolic link `link` to `x`, which
`opendir` would follow to the same listing; nothing beneath `./link` is emitted. -/
theorem walk_never_descends_into_symlink_witness :
    wf_dir
      (some [Entry.mk "x" (some 0o040755) (some [Entry.mk "y" (some 0o100644) none]),
             Entry.mk "link" (some 0o120777) (some [Entry.mk "y" (some 0o100644) none])])
      = true ∧
    ("./link", some 0o120777) ∈ entries_dir "."
      (some [Entry.mk "x" (some 0o040755) (some [Entry.mk "y" (some 0o100644) none]),
             Entry.mk "link" (some 0o120777) (some [Entry.mk "y" (some 0o100644) none])]) ∧
    (walk ⟨false, false, false, false⟩ "."
      (some [Entry.mk "x" (some 0o040755) (some [Entry.mk "y" (some 0o100644) none]),
             Entry.mk "link" (some 0o120777) (some [Entry.mk "y" (some 0o100644) none])])
      arr_init).items = ["./x", "./x/y", "./link"] ∧
    ∀ p ∈ (walk ⟨false, false, false, false⟩ "."
      (some [Entry.mk "x" (some 0o040755) (some [Entry.mk "y" (some 0o100644) none]),
             Entry.mk "link" (some 0o120777) (some [Entry.mk "y" (some 0o100644) none])])
      arr_init).items, ¬ beneath p "./link" :=
  ⟨by decide, by decide, by decide,
    (walk_never_descends_into_symlink ⟨false, false, false, false⟩ "." _
      (by decide)).2.2 "./link" 0o120777 (by decide) (by decide)⟩

theorem paths_list_shuffle (o : Opts) {l l2 : List Entry} (h : Shuffle l l2) :
    ∀ dp : String, (paths_list o dp l).Perm (paths_list o dp l2) := by
  induction h with
  | nil => intro dp; exact List.Perm.refl _
  | cons_closed n st _ ih =>
    intro dp
    rw [paths_list_cons, paths_list_cons]
    exact List.Perm.append_left _ (ih dp)
  | @cons_open n st s s2 l l2 _ _ ihs ih =>
    intro dp
    rw [paths_list_cons, paths_list_cons]
    refine List.Perm.append ?_ (ih dp)
    by_cases hn : n = "." ∨ n = ".."
    · simp [paths_ent, walk_body_dot _ _ _ _ _ _ hn]
    · cases st with
      | none => simp [paths_ent, walk_body_failed]
      | some m =>
        rw [paths_ent_eq _ _ _ _ _ hn, paths_ent_eq _ _ _ _ _ hn,
          paths_dir_some, paths_dir_some]
        refine List.Perm.append_left _ ?_
        by_cases hd : (S_ISDIR m && !S_ISLNK m) = true
        · simp only [hd, if_true]; exact ihs _
        · simp only [hd]; exact List.Perm.refl _
  | swap a b l =>
    intro dp
    simp only [paths_list_cons, ← List.append_assoc]
    exact List.Perm.append_right _ List.perm_append_comm
  | trans _ _ ih1 ih2 => intro dp; exact (ih1 dp).trans (ih2 dp)

/-- C9: for two trees that differ only in the order in which each directory returns its
entries, and for every start directory, flag setting and collector, the results of `walk`
are permutations of each other; in particular they hold the same paths. -/
theorem walk_shuffle_perm (o : Opts) (start : String) (t t2 : List Entry)
    (out : str_array_t) (h : Shuffle t t2) :
    (walk o start (some t) out).items.Perm (walk o start (some t2) out).items ∧
    ∀ p, p ∈ (walk o start (some t) out).items ↔
      p ∈ (walk o start (some t2) out).items := by
  have hp : (walk o start (some t) out).items.Perm
      (walk o start (some t2) out).items := by
    rw [walk_items, walk_items, paths_dir_some, paths_dir_some]
    exact List.Perm.append_left _ (paths_list_shuffle o h start)
  exact ⟨hp, fun p => hp.mem_iff⟩

/-- Witness of C9: the directory `a` returns `c`, `b` in one tree and `b`, `c` in the
other, and the top listing is reversed as well. -/
theorem walk_shuffle_perm_witness :
    (walk ⟨false, false, false, false⟩ "."
      (some [Entry.mk "a" (some 0o040755)
               (some [Entry.mk "c" (some 0o100644) none, Entry.mk "b" (some 0o100644) none]),
             Entry.mk "z" (some 0o100644) none]) arr_init).items = ["./a", "./a/c", "./a/b", "./z"] ∧
    (walk ⟨false, false, false, false⟩ "."
      (some [Entry.mk "z" (some 0o100644) none,
             Entry.mk "a" (some 0o040755)
               (some [Entry.mk "b" (some 0o100644) none, Entry.mk "c" (some 0o100644) none])])
      arr_init).items = ["./z", "./a", "./a/b", "./a/c"] ∧
    (walk ⟨false, false, false, false⟩ "."
      (some [Entry.mk "a" (some 0o040755)
               (some [Entry.mk "c" (some 0o100644) none, Entry.mk "b" (some 0o100644) none]),
             Entry.mk "z" (some 0o100644) none]) arr_init).items.Perm
    (walk ⟨false, false, false, false⟩ "."
      (some [Entry.mk "z" (some 0o100644) none,
             Entry.mk "a" (some 0o040755)
               (some [Entry.mk "b" (some 0o100644) none, Entry.mk "c" (some 0o100644) none])])
      arr_init).items :=
  ⟨by decide, by decide,
    (walk_shuffle_perm ⟨false, false, false, false⟩ "." _ _ arr_init
      (Shuffle.trans
        (Shuffle.cons_open "a" (some 0o040755) (Shuffle.swap _ _ [])
          (Shuffle.cons_closed "z" (some 0o100644) Shuffle.nil))
        (Shuffle.swap _ _ []))).1⟩

theorem walk_loop_remove_failed {l l2 : List Entry} (h : RemoveFailed l l2) :
    ∀ (o : Opts) (dp : String) (out : str_array_t),
      walk_loop o dp l out = walk_loop o dp l2 out := by
  induction h with
  | here n sub l =>
    intro o dp out
    rw [walk_loop, walk_body_failed]
  | next e _ ih =>
    intro o dp out
    rw [walk_loop, walk_loop, ih]
  | @inside n st s s2 l _ ih =>
    intro o dp out
    rw [walk_loop, walk_loop]
    congr 1
    by_cases hn : n = "." ∨ n = ".."
    · rw [walk_body_dot _ _ _ _ _ _ hn, walk_body_dot _ _ _ _ _ _ hn]
    · cases st with
      | none => rw [walk_body_failed, walk_body_failed]
      | some m =>
        rw [walk_body_eq _ _ _ _ _ _ hn, walk_body_eq _ _ _ _ _ _ hn]
        simp only [walk, ih]

/-- C10: the loop iteration for an entry whose `lstat` fails returns the collector
unchanged (nothing appended, no recursion) and the loop goes on with the next sibling;
so for every flag setting, start directory and collector, `walk` on a tree equals `walk`
on the tree with one such entry, and everything beneath it, removed.  `walk` is a total
function: it returns on every tree. -/
theorem walk_skips_failed_lstat (o : Opts) (start : String) (t t2 : List Entry)
    (out : str_array_t) (h : RemoveFailed t t2) :
    (∀ dp n sub acc, walk_body o dp (Entry.mk n none sub) acc = acc) ∧
    (∀ dp n sub rest acc, walk_loop o dp (Entry.mk n none sub :: rest) acc =
      walk_loop o dp rest acc) ∧
    walk o start (some t) out = walk o start (some t2) out := by
  refine ⟨fun dp n sub acc => walk_body_failed o dp n sub acc, ?_, ?_⟩
  · intro dp n sub rest acc
    rw [walk_loop, walk_body_failed]
  · simp only [walk]
    exact walk_loop_remove_failed h o start out

/-- Witness of C10: inside the directory `a`, `lstat` fails on `gone` (which would list
`x` if opened); the walk equals the walk on the tree without `gone`. -/
theorem walk_skips_failed_lstat_witness :
    (walk ⟨false, false, false, false⟩ "."
      (some [Entry.mk "a" (some 0o040755)
               (some [Entry.mk "gone" none (some [Entry.mk "x" (some 0o100644) none]),
                      Entry.mk "b" (some 0o100644) none]),
             Entry.mk "z" (some 0o100644) none]) arr_init).items = ["./a", "./a/b", "./z"] ∧
    walk ⟨false, false, false, false⟩ "."
      (some [Entry.mk "a" (some 0o040755)
               (some [Entry.mk "gone" none (some [Entry.mk "x" (some 0o100644) none]),
                      Entry.mk "b" (some 0o100644) none]),
             Entry.mk "z" (some 0o100644) none]) arr_init =
    walk ⟨false, false, false, false⟩ "."
      (some [Entry.mk "a" (some 0o040755) (some [Entry.mk "b" (some 0o100644) none]),
             Entry.mk "z" (some 0o100644) none]) arr_init :=
  ⟨by decide,
    (walk_skips_failed_lstat ⟨false, false, false, false⟩ "." _ _ arr_init
      (RemoveFailed.inside "a" (some 0o040755) _
        (RemoveFailed.here "gone" _ _))).2.2⟩

theorem strcmp_chars_antisymm (a : List Char) :
    ∀ b : List Char, 0 < strcmp_chars a b ↔ strcmp_chars b a < 0 := by
  induction a with
  | nil =>
    intro b
    cases b <;> simp [strcmp_chars]
  | cons x xs ih =>
    intro b
    cases b with
    | nil => simp [strcmp_chars]
    | cons y ys =>
      simp only [strcmp_chars]
      by_cases h1 : x.toNat < y.toNat
      · have h2 : ¬ y.toNat < x.toNat := by omega
        simp [h1, h2]
      · by_cases h2 : y.toNat < x.toNat
        · simp [h1, h2]
        · simp only [h1, h2, if_false]
          exact ih ys

theorem strcmp_chars_trans (a : List Char) :
    ∀ b c : List Char, strcmp_chars a b ≤ 0 → strcmp_chars b c ≤ 0 →
      strcmp_chars a c ≤ 0 := by
  induction a with
  | nil =>
    intro b c _ _
    cases c <;> simp [strcmp_chars]
  | cons x xs ih =>
    intro b c hab hbc
    cases b with
    | nil => simp [strcmp_chars] at hab
    | cons y ys =>
      cases c with
      | nil => simp [strcmp_chars] at hbc
      | cons z zs =>
        simp only [strcmp_chars] at hab hbc ⊢
        by_cases hxy : x.toNat < y.toNat
        · by_cases hyz : y.toNat < z.toNat
          · have hxz : x.toNat < z.toNat := by omega
            simp [hxz]
          · by_cases hzy : z.toNat < y.toNat
            · simp [hyz, hzy] at hbc
            · have hxz : x.toNat < z.toNat := by omega
              simp [hxz]
        · by_cases hyx : y.toNat < x.toNat
          · simp [hxy, hyx] at hab
          · simp only [hxy, hyx, if_false] at hab
            by_cases hyz : y.toNat < z.toNat
            · have hxz : x.toNat < z.toNat := by omega
              simp [hxz]
            · by_cases hzy : z.toNat < y.toNat
              · simp [hyz, hzy] at hbc
              · simp only [hyz, hzy, if_false] at hbc
                have hxz : ¬ x.toNat < z.toNat := by omega
                have hzx : ¬ z.toNat < x.toNat := by omega
                simp only [hxz, hzx, if_false]
                exact ih ys zs hab hbc

theorem strcoll_C_consistent : Consistent strcoll_C :=
  ⟨fun a b => strcmp_chars_antisymm a.data b.data,
    fun a b c => strcmp_chars_trans a.data b.data c.data⟩

theorem qsort_insertion_contract : QsortContract qsort_insertion := by
  intro cmp l hc
  haveI : IsTotal String (fun a b => cmp a b ≤ 0) := ⟨by
    intro a b
    by_cases h : cmp a b ≤ 0
    · exact Or.inl h
    · exact Or.inr (le_of_lt ((hc.1 a b).mp (lt_of_not_le h)))⟩
  haveI : IsTrans String (fun a b => cmp a b ≤ 0) := ⟨hc.2⟩
  exact ⟨List.perm_insertionSort _ l, List.sorted_insertionSort _ l⟩

/-- C8: with a `qsort` that keeps the contract of the C library and a `strcoll` that is
consistent, for every tree and start directory: under `-s` the lines `main` prints are a
permutation of the result of `walk` in which every line collates, by `strcoll`, at or
before every later line; without `-s` they are the result of `walk` in discovery order,
whatever `qsort` does; and for every function put in the place of `qsort`, contract or
not, that function is applied, with `strcoll` on the strings as its comparison, exactly
when `-s` is set and the result has at least 2 elements. -/
theorem main_prints_sorted_or_discovery_order
    (qsort : List String → (String → String → Int) → List String)
    (strcoll : String → String → Int) (o : Opts) (start : String)
    (root : Option (List Entry)) (hq : QsortContract qsort) (hc : Consistent strcoll) :
    (o.opt_s = true →
      (main qsort strcoll o start root).Perm (walk o start root arr_init).items ∧
      (main qsort strcoll o start root).Pairwise (fun a b => strcoll a b ≤ 0)) ∧
    (o.opt_s = false →
      ∀ (q : List String → (String → String → Int) → List String)
        (s : String → String → Int),
        main q s o start root = (walk o start root arr_init).items) ∧
    (∀ (q : List String → (String → String → Int) → List String)
        (s : String → String → Int),
      main q s o start root =
        (if o.opt_s = true ∧ 2 ≤ (walk o start root arr_init).size then
          q (walk o start root arr_init).items s
        else (walk o start root arr_init).items)) := by
  have hmain : ∀ (q : List String → (String → String → Int) → List String)
      (s : String → String → Int), main q s o start root =
      (if o.opt_s = true ∧ 2 ≤ (walk o start root arr_init).size then
        q (walk o start root arr_init).items s
      else (walk o start root arr_init).items) := by
    intro q s
    have hcmp : path_cmp s = s := rfl
    unfold main
    rw [hcmp]
    by_cases hs : o.opt_s = true <;>
      by_cases hn : 2 ≤ (walk o start root arr_init).size
    · have hn2 : (walk o start root arr_init).size > 1 := hn
      simp [hs, hn, hn2]
    · have hn2 : ¬ (walk o start root arr_init).size > 1 := hn
      simp [hs, hn, hn2]
    · simp [hs]
    · simp [hs]
  refine ⟨?_, ?_, hmain⟩
  · intro hs
    rw [hmain]
    by_cases hn : 2 ≤ (walk o start root arr_init).size
    · rw [if_pos ⟨hs, hn⟩]
      exact hq strcoll _ hc
    · rw [if_neg (fun h => hn h.2)]
      refine ⟨List.Perm.refl _, ?_⟩
      have hlen : (walk o start root arr_init).items.length < 2 := Nat.lt_of_not_le hn
      match hitems : (walk o start root arr_init).items, hlen with
      | [], _ => exact List.Pairwise.nil
      | [a], _ => exact List.pairwise_singleton _ a
      | _ :: _ :: _, h => exact absurd h (by simp)
  · intro hs q s
    rw [hmain, if_neg (fun h => by rw [hs] at h; cases h.1)]

/-- Witness: insertion sort as `qsort`, the "C" locale as `strcoll`, the flag `-s` and a
directory returning `b`, `c`, `a` in that order; `main` prints the three paths in
collation order. -/
theorem main_prints_sorted_or_discovery_order_witness :
    QsortContract qsort_insertion ∧ Consistent strcoll_C ∧
    (walk ⟨false, false, false, true⟩ "."
      (some [Entry.mk "b" (some 0o100644) none, Entry.mk "c" (some 0o100644) none,
             Entry.mk "a" (some 0o100644) none]) arr_init).items
      = ["./b", "./c", "./a"] ∧
    main qsort_insertion strcoll_C ⟨false, false, false, true⟩ "."
      (some [Entry.mk "b" (some 0o100644) none, Entry.mk "c" (some 0o100644) none,
             Entry.mk "a" (some 0o100644) none])
      = ["./a", "./b", "./c"] ∧
    (main qsort_insertion strcoll_C ⟨false, false, false, true⟩ "."
      (some [Entry.mk "b" (some 0o100644) none, Entry.mk "c" (some 0o100644) none,
             Entry.mk "a" (some 0o100644) none])).Pairwise
      (fun a b => strcoll_C a b ≤ 0) :=
  ⟨qsort_insertion_contract, strcoll_C_consistent, by decide, by decide,
    ((main_prints_sorted_or_discovery_order qsort_insertion strcoll_C
      ⟨false, false, false, true⟩ "."
      (some [Entry.mk "b" (some 0o100644) none, Entry.mk "c" (some 0o100644) none,
             Entry.mk "a" (some 0o100644) none])
      qsort_insertion_contract strcoll_C_consistent).1 rfl).2⟩

end Dirwalk
